import Mathlib

/-
Shallow embedding of src/src/modification_workflow.py.

The pure string logic of GitHubIssuePRManager comes first (slug derivation,
branch-name derivation, issue-number extraction from command output), then the
keyword classifier ModificationWorkflow.analyze_feedback, then the effect
structure of ModificationWorkflow.complete_fix as an explicit function from the
collaborator outcomes to the produced result and the trace of external calls,
and finally the ledger operation request_modification, modelled from the spec
because the state-manager collaborator is not part of this repository's source.
-/

namespace GitHubIssuePRManager

/-- Character classes kept by the regex in the first substitution of
`_slugify` (source line 88), namely lowercase ASCII letters, ASCII digits,
Hiragana (U+3040-U+309F), Katakana (U+30A0-U+30FF) and the CJK unified
ideographs block (U+4E00-U+9FFF). -/
def isAllowedChar (c : Char) : Bool :=
  (0x61 ≤ c.toNat && c.toNat ≤ 0x7a) || (0x30 ≤ c.toNat && c.toNat ≤ 0x39) ||
  (0x3040 ≤ c.toNat && c.toNat ≤ 0x309f) || (0x30a0 ≤ c.toNat && c.toNat ≤ 0x30ff) ||
  (0x4e00 ≤ c.toNat && c.toNat ≤ 0x9fff)

/-- Model of Python `str.lower` on one character, as the character sequence
it contributes to the lowered string.  CPython applies the Unicode full
lowercase mapping: ASCII uppercase letters map to the corresponding lowercase
letter, U+0130 (LATIN CAPITAL LETTER I WITH DOT ABOVE) expands to the two
characters `i` followed by U+0307 (COMBINING DOT ABOVE), and U+212A
(KELVIN SIGN) maps to `k`.  An exhaustive scan of the Unicode lowercase
mappings shows that these are the only characters whose lowering changes the
length or moves a character into or out of the slug/keyword allow-set; every
remaining cased character maps one-to-one from a character outside the
allow-set to another character outside the allow-set (for example U+00C4 to
U+00E4, or the context-dependent Greek sigma forms).  The keywords and the
slug allow-set consist of allow-set characters only, so the surrounding logic
cannot distinguish such a substitution from the identity, and the model keeps
those characters fixed. -/
def pyLower (c : Char) : List Char :=
  if 0x41 ≤ c.toNat && c.toNat ≤ 0x5a then [Char.ofNat (c.toNat + 32)]
  else if c.toNat == 0x130 then ['i', Char.ofNat 0x307]
  else if c.toNat == 0x212a then ['k']
  else [c]

/-- Python `str.lower` lifted to strings: the characters' lowerings are
concatenated. -/
def pyLowerStr (s : String) : String := ⟨s.data.flatMap pyLower⟩

/-- Pointwise form of the first substitution in `_slugify` (source line 88):
every character outside the allow-set becomes a hyphen.  Composing this with
`collapseHyphens` gives exactly the two `re.sub` calls of lines 88-89
composed: the first call turns each maximal run of disallowed characters into
one hyphen, which equals pointwise replacement followed by collapsing hyphen
runs because a hyphen is itself a disallowed character, and then the second
call (collapsing hyphen runs) is absorbed. -/
def hyphenate (l : List Char) : List Char :=
  l.map (fun c => if isAllowedChar c then c else '-')

/-- Collapse every run of consecutive hyphens to a single hyphen (the second
substitution of `_slugify`, source line 89). -/
def collapseHyphens : List Char → List Char
  | [] => []
  | [c] => [c]
  | a :: b :: t =>
    if a == '-' && b == '-' then collapseHyphens (b :: t)
    else a :: collapseHyphens (b :: t)

/-- Remove trailing hyphens, as Python `.rstrip('-')` does (source lines 90
and 93). -/
def rstripHyphens : List Char → List Char
  | [] => []
  | a :: t =>
    match rstripHyphens t with
    | [] => if a == '-' then [] else [a]
    | r => a :: r

/-- Remove leading hyphens, the left half of Python `.strip('-')` (source
line 90). -/
def lstripHyphens (l : List Char) : List Char := l.dropWhile (fun c => c == '-')

/-- Last two steps of `_slugify` (source lines 92-94): truncate to
`max_length` characters dropping a trailing hyphen, and fall back to the
literal `fix` when the result is empty. -/
def slugTrunc (max_length : Nat) (s1 : List Char) : List Char :=
  let s2 := if max_length < s1.length then rstripHyphens (s1.take max_length) else s1
  if s2.isEmpty then ['f', 'i', 'x'] else s2

/-- Body of `GitHubIssuePRManager._slugify` (source lines 84-94) over a list
of characters, with the `max_length` parameter explicit.  Steps: lowercase,
replace disallowed runs by single hyphens, strip boundary hyphens, truncate to
`max_length` characters dropping a trailing hyphen, and fall back to the
literal `fix` when the result is empty. -/
def slugifyAux (max_length : Nat) (l : List Char) : List Char :=
  slugTrunc max_length
    (rstripHyphens (lstripHyphens (collapseHyphens (hyphenate (l.flatMap pyLower)))))

/-- `GitHubIssuePRManager._slugify` with its default `max_length = 30`. -/
def _slugify (text : String) : String := ⟨slugifyAux 30 text.data⟩

/-- `GitHubIssuePRManager.create_branch` (source lines 166-180): compose
`fix/` with the app name, the issue number and the slugified description, and
drop the slug when the composed name exceeds 60 characters. -/
def create_branch (app_name : String) (issue_number : Nat) (description : String) : String :=
  let slug := _slugify description
  let branch_name := "fix/" ++ app_name ++ "-" ++ toString issue_number ++ "-" ++ slug
  if 60 < branch_name.length then "fix/" ++ app_name ++ "-" ++ toString issue_number
  else branch_name

/-- A character that can appear in a slug: a member of the allow-set or a
hyphen. -/
def goodChar (c : Char) : Bool := isAllowedChar c || c == '-'

/-- The first character, if any, is not a hyphen. -/
def headOK : List Char → Bool
  | [] => true
  | c :: _ => !(c == '-')

/-- The last character, if any, is not a hyphen. -/
def lastOK : List Char → Bool
  | [] => true
  | [c] => !(c == '-')
  | _ :: b :: t => lastOK (b :: t)

/-- No two consecutive characters are both hyphens. -/
def noAdj : List Char → Bool
  | [] => true
  | [_] => true
  | a :: b :: t => !(a == '-' && b == '-') && noAdj (b :: t)

/-- The invariant satisfied by every `_slugify` output: only slug characters,
no hyphen run, no boundary hyphen, nonempty, and at most `n` characters. -/
def SlugInv (n : Nat) (l : List Char) : Prop :=
  (∀ c ∈ l, goodChar c = true) ∧ noAdj l = true ∧ headOK l = true ∧
  lastOK l = true ∧ l.length ≤ n ∧ l ≠ []

theorem goodChar_pyLower_fixed {c : Char} (h : goodChar c = true) : pyLower c = [c] := by
  simp only [goodChar, Bool.or_eq_true, beq_iff_eq] at h
  rcases h with h | rfl
  · simp only [isAllowedChar, Bool.or_eq_true, Bool.and_eq_true, decide_eq_true_eq] at h
    simp only [pyLower]
    split
    · next hcond =>
      simp only [Bool.and_eq_true, decide_eq_true_eq] at hcond
      omega
    · split
      · next hk =>
        simp only [beq_iff_eq] at hk
        omega
      · split
        · next hk =>
          simp only [beq_iff_eq] at hk
          omega
        · rfl
  · decide

theorem flatMap_pyLower_id {l : List Char} (h : ∀ c ∈ l, goodChar c = true) :
    l.flatMap pyLower = l := by
  induction l with
  | nil => rfl
  | cons a t ih =>
    rw [List.flatMap_cons, goodChar_pyLower_fixed (h a (List.mem_cons_self a t)),
      ih (fun c hc => h c (List.mem_cons_of_mem a hc))]
    rfl

theorem hyphenate_id {l : List Char} (h : ∀ c ∈ l, goodChar c = true) :
    hyphenate l = l := by
  induction l with
  | nil => rfl
  | cons a t ih =>
    have ha := h a (List.mem_cons_self a t)
    have ht : hyphenate t = t := ih (fun c hc => h c (List.mem_cons_of_mem a hc))
    simp only [hyphenate, List.map_cons] at ht ⊢
    rw [ht]
    by_cases hc : isAllowedChar a = true
    · simp [hc]
    · have ha' : a = '-' := by
        simp only [goodChar, Bool.or_eq_true, beq_iff_eq] at ha
        tauto
      simp [hc, ha']

theorem collapseHyphens_id : ∀ {l : List Char}, noAdj l = true → collapseHyphens l = l
  | [], _ => rfl
  | [_], _ => rfl
  | a :: b :: t, h => by
    simp only [noAdj, Bool.and_eq_true, Bool.not_eq_true'] at h
    simp only [collapseHyphens, h.1]
    simp only [Bool.false_eq_true, if_false]
    rw [collapseHyphens_id h.2]

theorem lstrip_id {l : List Char} (h : headOK l = true) : lstripHyphens l = l := by
  cases l with
  | nil => rfl
  | cons a t =>
    simp only [headOK, Bool.not_eq_true'] at h
    simp [lstripHyphens, List.dropWhile_cons, h]

theorem rstrip_id : ∀ {l : List Char}, lastOK l = true → rstripHyphens l = l
  | [], _ => rfl
  | [a], h => by
    simp only [lastOK, Bool.not_eq_true'] at h
    simp [rstripHyphens, h]
  | a :: b :: t, h => by
    simp only [lastOK] at h
    have ih : rstripHyphens (b :: t) = b :: t := rstrip_id h
    have hdef : rstripHyphens (a :: b :: t) =
        match rstripHyphens (b :: t) with
        | [] => if a == '-' then [] else [a]
        | r => a :: r := rfl
    rw [hdef, ih]

theorem goodChar_of_mem_hyphenate {c : Char} {l : List Char} (h : c ∈ hyphenate l) :
    goodChar c = true := by
  simp only [hyphenate, List.mem_map] at h
  obtain ⟨a, _, ha⟩ := h
  by_cases hc : isAllowedChar a = true
  · rw [if_pos hc] at ha
    subst ha
    simp [goodChar, hc]
  · rw [if_neg hc] at ha
    subst ha
    simp [goodChar]

theorem mem_collapseHyphens : ∀ {c : Char} {l : List Char}, c ∈ collapseHyphens l → c ∈ l
  | _, [], h => h
  | _, [_], h => h
  | c, a :: b :: t, h => by
    by_cases hc : (a == '-' && b == '-') = true
    · rw [show collapseHyphens (a :: b :: t) = collapseHyphens (b :: t) from by
        simp [collapseHyphens, hc]] at h
      exact List.mem_cons_of_mem a (mem_collapseHyphens h)
    · rw [show collapseHyphens (a :: b :: t) = a :: collapseHyphens (b :: t) from by
        simp [collapseHyphens, hc]] at h
      rcases List.mem_cons.mp h with rfl | hm
      · exact List.mem_cons_self c (b :: t)
      · exact List.mem_cons_of_mem a (mem_collapseHyphens hm)

theorem collapseHyphens_cons : ∀ (a : Char) (t : List Char),
    ∃ t', collapseHyphens (a :: t) = a :: t'
  | _, [] => ⟨[], rfl⟩
  | a, b :: t => by
    by_cases hc : (a == '-' && b == '-') = true
    · obtain ⟨t', ht⟩ := collapseHyphens_cons b t
      have hab : a = b := by
        simp only [Bool.and_eq_true, beq_iff_eq] at hc
        rw [hc.1, hc.2]
      refine ⟨t', ?_⟩
      rw [show collapseHyphens (a :: b :: t) = collapseHyphens (b :: t) from by
        simp [collapseHyphens, hc]]
      rw [ht, hab]
    · exact ⟨collapseHyphens (b :: t), by simp [collapseHyphens, hc]⟩

theorem noAdj_tail : ∀ {a : Char} {t : List Char}, noAdj (a :: t) = true → noAdj t = true
  | _, [], _ => rfl
  | _, _ :: _, h => by
    simp only [noAdj, Bool.and_eq_true] at h
    exact h.2

theorem noAdj_collapseHyphens : ∀ (l : List Char), noAdj (collapseHyphens l) = true
  | [] => rfl
  | [_] => rfl
  | a :: b :: t => by
    by_cases hc : (a == '-' && b == '-') = true
    · rw [show collapseHyphens (a :: b :: t) = collapseHyphens (b :: t) from by
        simp [collapseHyphens, hc]]
      exact noAdj_collapseHyphens (b :: t)
    · rw [show collapseHyphens (a :: b :: t) = a :: collapseHyphens (b :: t) from by
        simp [collapseHyphens, hc]]
      obtain ⟨t', ht⟩ := collapseHyphens_cons b t
      rw [ht]
      simp only [noAdj, Bool.and_eq_true, Bool.not_eq_true']
      refine ⟨Bool.eq_false_iff.mpr hc, ?_⟩
      rw [← ht]
      exact noAdj_collapseHyphens (b :: t)

theorem headOK_lstrip (l : List Char) : headOK (lstripHyphens l) = true := by
  induction l with
  | nil => rfl
  | cons a t ih =>
    by_cases hc : (a == '-') = true
    · simpa [lstripHyphens, List.dropWhile_cons, hc] using ih
    · simp [lstripHyphens, List.dropWhile_cons, hc, headOK]

theorem noAdj_lstrip {l : List Char} (h : noAdj l = true) : noAdj (lstripHyphens l) = true := by
  induction l with
  | nil => exact h
  | cons a t ih =>
    by_cases hc : (a == '-') = true
    · rw [show lstripHyphens (a :: t) = lstripHyphens t from by
        simp [lstripHyphens, List.dropWhile_cons, hc]]
      exact ih (noAdj_tail h)
    · rwa [show lstripHyphens (a :: t) = a :: t from by
        simp [lstripHyphens, List.dropWhile_cons, hc]]

theorem mem_lstrip {c : Char} {l : List Char} (h : c ∈ lstripHyphens l) : c ∈ l := by
  induction l with
  | nil => exact h
  | cons a t ih =>
    by_cases hc : (a == '-') = true
    · rw [show lstripHyphens (a :: t) = lstripHyphens t from by
        simp [lstripHyphens, List.dropWhile_cons, hc]] at h
      exact List.mem_cons_of_mem a (ih h)
    · rwa [show lstripHyphens (a :: t) = a :: t from by
        simp [lstripHyphens, List.dropWhile_cons, hc]] at h

theorem rstrip_cons_eq (a : Char) (t : List Char) :
    rstripHyphens (a :: t) =
      if rstripHyphens t = [] then (if a == '-' then [] else [a])
      else a :: rstripHyphens t := by
  have hdef : rstripHyphens (a :: t) =
      match rstripHyphens t with
      | [] => if a == '-' then [] else [a]
      | r => a :: r := rfl
  rw [hdef]
  cases h : rstripHyphens t with
  | nil => simp
  | cons x xs => simp

theorem mem_rstrip : ∀ {c : Char} {l : List Char}, c ∈ rstripHyphens l → c ∈ l
  | _, [], h => h
  | c, a :: t, h => by
    rw [rstrip_cons_eq] at h
    by_cases hr : rstripHyphens t = []
    · rw [if_pos hr] at h
      by_cases ha : (a == '-') = true
      · rw [if_pos ha] at h
        exact absurd h (List.not_mem_nil c)
      · rw [if_neg ha] at h
        rcases List.mem_singleton.mp h with rfl
        exact List.mem_cons_self c t
    · rw [if_neg hr] at h
      rcases List.mem_cons.mp h with rfl | hm
      · exact List.mem_cons_self c t
      · exact List.mem_cons_of_mem a (mem_rstrip hm)

theorem rstrip_ne_nil {a : Char} {t : List Char} (ha : (a == '-') = false) :
    rstripHyphens (a :: t) ≠ [] := by
  rw [rstrip_cons_eq]
  by_cases hr : rstripHyphens t = []
  · rw [if_pos hr, if_neg (by simp [ha])]
    simp
  · rw [if_neg hr]
    simp

theorem headOK_rstrip {l : List Char} (h : headOK l = true) :
    headOK (rstripHyphens l) = true := by
  cases l with
  | nil => rfl
  | cons a t =>
    rw [rstrip_cons_eq]
    by_cases hr : rstripHyphens t = []
    · rw [if_pos hr]
      by_cases ha : (a == '-') = true
      · rw [if_pos ha]; rfl
      · rw [if_neg ha]
        simpa [headOK] using h
    · rw [if_neg hr]
      simpa [headOK] using h

theorem lastOK_rstrip : ∀ (l : List Char), lastOK (rstripHyphens l) = true
  | [] => rfl
  | a :: t => by
    rw [rstrip_cons_eq]
    by_cases hr : rstripHyphens t = []
    · rw [if_pos hr]
      by_cases ha : (a == '-') = true
      · rw [if_pos ha]; rfl
      · rw [if_neg ha]
        simp [lastOK, ha]
    · rw [if_neg hr]
      obtain ⟨x, xs, hx⟩ : ∃ x xs, rstripHyphens t = x :: xs := by
        cases hxx : rstripHyphens t with
        | nil => exact absurd hxx hr
        | cons x xs => exact ⟨x, xs, rfl⟩
      rw [hx]
      have hstep : lastOK (a :: x :: xs) = lastOK (x :: xs) := rfl
      rw [hstep, ← hx]
      exact lastOK_rstrip t

theorem noAdj_rstrip : ∀ {l : List Char}, noAdj l = true → noAdj (rstripHyphens l) = true
  | [], h => h
  | a :: t, h => by
    rw [rstrip_cons_eq]
    by_cases hr : rstripHyphens t = []
    · rw [if_pos hr]
      by_cases ha : (a == '-') = true
      · rw [if_pos ha]; rfl
      · rw [if_neg ha]; rfl
    · rw [if_neg hr]
      cases t with
      | nil => exact absurd rfl hr
      | cons b t2 =>
        obtain ⟨t', ht'⟩ : ∃ t', rstripHyphens (b :: t2) = b :: t' := by
          rw [rstrip_cons_eq]
          by_cases h2 : rstripHyphens t2 = []
          · rw [if_pos h2]
            by_cases hb : (b == '-') = true
            · exact absurd (by rw [rstrip_cons_eq, if_pos h2, if_pos hb]) hr
            · rw [if_neg hb]; exact ⟨[], rfl⟩
          · rw [if_neg h2]; exact ⟨rstripHyphens t2, rfl⟩
        rw [ht']
        simp only [noAdj, Bool.and_eq_true]
        constructor
        · simp only [noAdj, Bool.and_eq_true] at h
          exact h.1
        · have hrec := noAdj_rstrip (noAdj_tail h)
          rwa [ht'] at hrec

theorem rstrip_length : ∀ (l : List Char), (rstripHyphens l).length ≤ l.length
  | [] => Nat.le_refl 0
  | a :: t => by
    rw [rstrip_cons_eq]
    by_cases hr : rstripHyphens t = []
    · rw [if_pos hr]
      by_cases ha : (a == '-') = true
      · simp [ha]
      · simp [ha]
    · rw [if_neg hr]
      have hrec := rstrip_length t
      simp only [List.length_cons]
      omega

theorem rstrip_ne_nil' {l : List Char} (hh : headOK l = true) (hne : l ≠ []) :
    rstripHyphens l ≠ [] := by
  cases l with
  | nil => exact absurd rfl hne
  | cons a t =>
    have ha : (a == '-') = false := by simpa [headOK, Bool.not_eq_true'] using hh
    exact rstrip_ne_nil ha

theorem headOK_take {l : List Char} (n : Nat) (h : headOK l = true) :
    headOK (l.take n) = true := by
  cases l with
  | nil => simp [List.take_nil, headOK]
  | cons a t =>
    cases n with
    | zero => rfl
    | succ m => simpa [List.take_succ_cons, headOK] using h

theorem noAdj_take : ∀ {l : List Char} (n : Nat), noAdj l = true → noAdj (l.take n) = true
  | [], _, _ => by simp [List.take_nil, noAdj]
  | _ :: _, 0, _ => rfl
  | [_], _ + 1, _ => by simp [List.take_succ_cons, List.take_nil, noAdj]
  | _ :: _ :: _, 1, _ => by simp [List.take_succ_cons, noAdj]
  | a :: b :: t, n + 2, h => by
    simp only [List.take_succ_cons]
    simp only [noAdj, Bool.and_eq_true] at h ⊢
    refine ⟨h.1, ?_⟩
    have hrec := noAdj_take (l := b :: t) (n + 1) h.2
    simpa [List.take_succ_cons] using hrec

theorem slugTrunc_inv {s1 : List Char} (hgood : ∀ c ∈ s1, goodChar c = true)
    (hnoadj : noAdj s1 = true) (hhead : headOK s1 = true) (hlast : lastOK s1 = true) :
    SlugInv 30 (slugTrunc 30 s1) := by
  have hfix : SlugInv 30 (['f', 'i', 'x'] : List Char) := by
    refine ⟨by decide, rfl, rfl, rfl, by decide, by decide⟩
  simp only [slugTrunc]
  by_cases hlen : 30 < s1.length
  · rw [if_pos hlen]
    have htgood : ∀ c ∈ rstripHyphens (s1.take 30), goodChar c = true := fun c hc =>
      hgood c (List.take_subset _ _ (mem_rstrip hc))
    have htnoadj : noAdj (rstripHyphens (s1.take 30)) = true :=
      noAdj_rstrip (noAdj_take 30 hnoadj)
    have hthead : headOK (rstripHyphens (s1.take 30)) = true :=
      headOK_rstrip (headOK_take 30 hhead)
    have htlast : lastOK (rstripHyphens (s1.take 30)) = true := lastOK_rstrip _
    have htlen : (rstripHyphens (s1.take 30)).length ≤ 30 := by
      have h1 := rstrip_length (s1.take 30)
      have h2 : (s1.take 30).length = 30 := by
        rw [List.length_take]
        omega
      omega
    have htne : rstripHyphens (s1.take 30) ≠ [] := by
      refine rstrip_ne_nil' (headOK_take 30 hhead) ?_
      intro hnil
      have h2 : (s1.take 30).length = 30 := by
        rw [List.length_take]
        omega
      rw [hnil] at h2
      simp at h2
    rw [if_neg (by simpa [List.isEmpty_iff] using htne)]
    exact ⟨htgood, htnoadj, hthead, htlast, htlen, htne⟩
  · rw [if_neg hlen]
    by_cases hni : s1.isEmpty = true
    · rw [if_pos hni]
      exact hfix
    · rw [if_neg hni]
      refine ⟨hgood, hnoadj, hhead, hlast, by omega, ?_⟩
      simpa [List.isEmpty_iff] using hni

theorem slugTrunc_id {l : List Char} (h : SlugInv 30 l) : slugTrunc 30 l = l := by
  obtain ⟨-, -, -, -, hlen, hne⟩ := h
  have h1 : ¬ 30 < l.length := by omega
  simp only [slugTrunc, if_neg h1]
  rw [if_neg (by simpa [List.isEmpty_iff] using hne)]

theorem slugifyAux_inv (l : List Char) : SlugInv 30 (slugifyAux 30 l) := by
  simp only [slugifyAux]
  exact slugTrunc_inv
    (fun c hc => goodChar_of_mem_hyphenate (mem_collapseHyphens (mem_lstrip (mem_rstrip hc))))
    (noAdj_rstrip (noAdj_lstrip (noAdj_collapseHyphens _)))
    (headOK_rstrip (headOK_lstrip _))
    (lastOK_rstrip _)

theorem slugifyAux_id {l : List Char} (h : SlugInv 30 l) : slugifyAux 30 l = l := by
  obtain ⟨hgood, hnoadj, hhead, hlast, hlen, hne⟩ := h
  simp only [slugifyAux]
  rw [flatMap_pyLower_id hgood, hyphenate_id hgood, collapseHyphens_id hnoadj,
    lstrip_id hhead, rstrip_id hlast]
  exact slugTrunc_id ⟨hgood, hnoadj, hhead, hlast, hlen, hne⟩

/-- C6: `_slugify` with its default maximum length 30 is idempotent:
slugifying an already-slugified string returns that string unchanged. -/
theorem _slugify_idempotent (s : String) : _slugify (_slugify s) = _slugify s := by
  show (⟨slugifyAux 30 (slugifyAux 30 s.data)⟩ : String) = ⟨slugifyAux 30 s.data⟩
  rw [slugifyAux_id (slugifyAux_inv s.data)]

/-- C5 is false as stated: with a 60-character app name, the slug-bearing form
exceeds 60 characters, so `create_branch` falls back to the slugless form,
which is itself 66 characters long; the source never checks the fallback
against the limit. -/
theorem create_branch_length_counterexample :
    ¬ (create_branch "aaaaaaaaaaaaaaaaaaaaaaaaaaaaaaaaaaaaaaaaaaaaaaaaaaaaaaaaaaaa" 1
        "x").length ≤ 60 := by
  decide

/-- C5 amended: the branch name returned by `create_branch` always begins with
`fix/`, and it is at most 60 characters long whenever the slugless fallback
form (5 characters of scaffolding plus the app name plus the decimal issue
number) fits into 60 characters; the source checks only the slug-bearing form
against the 60-character limit, so a longer fallback is returned untruncated. -/
theorem create_branch_spec (app_name : String) (issue_number : Nat) (description : String) :
    (∃ rest : String, create_branch app_name issue_number description = "fix/" ++ rest) ∧
    (5 + app_name.length + (toString issue_number).length ≤ 60 →
      (create_branch app_name issue_number description).length ≤ 60) := by
  simp only [create_branch]
  have h4 : ("fix/" : String).length = 4 := rfl
  have h1 : ("-" : String).length = 1 := rfl
  by_cases hlen : 60 <
      ("fix/" ++ app_name ++ "-" ++ toString issue_number ++ "-" ++ _slugify description).length
  · rw [if_pos hlen]
    refine ⟨⟨app_name ++ "-" ++ toString issue_number, by simp [String.append_assoc]⟩, ?_⟩
    intro h
    simp only [String.length_append, h4, h1]
    omega
  · rw [if_neg hlen]
    refine ⟨⟨app_name ++ "-" ++ toString issue_number ++ "-" ++ _slugify description,
      by simp [String.append_assoc]⟩, ?_⟩
    intro _
    simp only [String.length_append, h4, h1] at hlen ⊢
    omega

/-- Witness for `create_branch_spec` at a concrete input. -/
theorem create_branch_spec_witness :
    5 + ("todo-app" : String).length + (toString (42 : Nat)).length ≤ 60 ∧
    (create_branch "todo-app" 42 "Fix the button color").length ≤ 60 :=
  ⟨by decide, (create_branch_spec "todo-app" 42 "Fix the button color").2 (by decide)⟩

end GitHubIssuePRManager

namespace ModificationWorkflow

/-- One value of the `MODIFICATION_TYPES` dictionary (source lines 268-299):
keyword set, phase list, human-readable description and label set. -/
structure ModTypeConfig where
  keywords : List String
  phases : List Nat
  description : String
  labels : List String

/-- The fixed category table `ModificationWorkflow.MODIFICATION_TYPES`
(source lines 268-299) in declaration order ui, logic, docs, security, full.
Python dictionaries preserve insertion order, so the iteration in
`analyze_feedback` follows this order. -/
def MODIFICATION_TYPES : List (String × ModTypeConfig) :=
  [("ui", ⟨["デザイン", "色", "レイアウト", "スタイル", "CSS", "見た目", "UI", "ボタン", "フォント"],
    [3, 6], "UI/デザイン変更", ["type:ui"]⟩),
   ("logic", ⟨["ロジック", "機能", "動作", "バグ", "エラー", "修正", "追加", "削除"],
    [3, 4, 6], "ロジック/機能変更", ["type:fix"]⟩),
   ("docs", ⟨["ドキュメント", "README", "説明", "コメント", "ヘルプ"],
    [5, 6], "ドキュメント変更", ["type:docs"]⟩),
   ("security", ⟨["セキュリティ", "認証", "パスワード", "API", "キー", "トークン"],
    [3, 4, 6], "セキュリティ関連変更", ["type:security"]⟩),
   ("full", ⟨["全体", "大幅", "リファクタ", "作り直し"],
    [3, 4, 5, 6], "大規模変更", ["type:refactor"]⟩)]

/-- Whether the first list occurs at the start of the second. -/
def startsWithL : List Char → List Char → Bool
  | [], _ => true
  | _ :: _, [] => false
  | a :: as, b :: bs => a == b && startsWithL as bs

/-- Python substring containment, `needle in hay` for strings: the needle
occurs contiguously somewhere in the hay (an empty needle always does). -/
def containsSub (needle : List Char) : List Char → Bool
  | [] => startsWithL needle []
  | a :: t => startsWithL needle (a :: t) || containsSub needle t

/-- The keyword-matching pass of `analyze_feedback` (source lines 359-364):
the entries of the table, in declaration order, for which some keyword is a
case-insensitive substring of the feedback. -/
def matchedTypes (feedback : String) : List (String × ModTypeConfig) :=
  MODIFICATION_TYPES.filter (fun p =>
    p.2.keywords.any (fun k =>
      containsSub (GitHubIssuePRManager.pyLowerStr k).data
        (GitHubIssuePRManager.pyLowerStr feedback).data))

/-- Python `max(xs, key=f)` over `acc :: l`: a left fold that replaces the
current best only on a strictly greater key, hence keeps the first element
attaining the maximum. -/
def pyMaxBy {α : Type} (f : α → Nat) : List α → α → α
  | [], acc => acc
  | x :: xs, acc => pyMaxBy f xs (if f acc < f x then x else acc)

/-- `ModificationWorkflow.analyze_feedback` (source lines 349-374): keyword
matching over the fixed table; no match defaults to the ui plan; otherwise the
matched category with the most phases wins, ties going to the earliest table
entry because Python `max` keeps the first maximum. -/
def analyze_feedback (feedback : String) : String × List Nat × List String :=
  match matchedTypes feedback with
  | [] => ("ui", [3, 6], ["type:ui"])
  | m :: ms =>
    let best := pyMaxBy (fun p => p.2.phases.length) ms m
    (best.1, best.2.phases, best.2.labels)

theorem pyMaxBy_spec {α : Type} (f : α → Nat) :
    ∀ (l : List α) (acc : α), ∃ l1 l2, acc :: l = l1 ++ pyMaxBy f l acc :: l2 ∧
      (∀ x ∈ l1, f x < f (pyMaxBy f l acc)) ∧ (∀ x ∈ l2, f x ≤ f (pyMaxBy f l acc))
  | [], acc => ⟨[], [], rfl, by simp, by simp⟩
  | x :: xs, acc => by
    by_cases hc : f acc < f x
    · obtain ⟨l1, l2, heq, hlt, hle⟩ := pyMaxBy_spec f xs x
      have hres : pyMaxBy f (x :: xs) acc = pyMaxBy f xs x := by
        simp [pyMaxBy, hc]
      have hxle : f x ≤ f (pyMaxBy f xs x) := by
        cases l1 with
        | nil =>
          obtain ⟨hb, -⟩ := List.cons_eq_cons.mp heq
          rw [← hb]
        | cons z zs =>
          obtain ⟨hz, -⟩ := List.cons_eq_cons.mp heq
          have hzlt := hlt z (List.mem_cons_self z zs)
          rw [← hz] at hzlt
          exact Nat.le_of_lt hzlt
      refine ⟨acc :: l1, l2, ?_, ?_, fun y hy => by rw [hres]; exact hle y hy⟩
      · rw [hres, List.cons_append, ← heq]
      · intro y hy
        rcases List.mem_cons.mp hy with rfl | hy'
        · rw [hres]
          exact Nat.lt_of_lt_of_le hc hxle
        · rw [hres]
          exact hlt y hy'
    · obtain ⟨l1, l2, heq, hlt, hle⟩ := pyMaxBy_spec f xs acc
      have hres : pyMaxBy f (x :: xs) acc = pyMaxBy f xs acc := by
        simp [pyMaxBy, hc]
      cases l1 with
      | nil =>
        obtain ⟨hb, hl2⟩ := List.cons_eq_cons.mp heq
        refine ⟨[], x :: l2, ?_, by simp, ?_⟩
        · rw [hres, List.nil_append, ← hb, ← hl2]
        · intro y hy
          rcases List.mem_cons.mp hy with rfl | hy'
          · rw [hres, ← hb]
            omega
          · rw [hres]
            exact hle y hy'
      | cons z zs =>
        obtain ⟨hz, hxs⟩ := List.cons_eq_cons.mp heq
        refine ⟨acc :: x :: zs, l2, ?_, ?_, fun y hy => by rw [hres]; exact hle y hy⟩
        · rw [hres]
          have hgoal := congrArg (fun t => acc :: x :: t) hxs
          simpa using hgoal
        · intro y hy
          have hacc : f acc < f (pyMaxBy f xs acc) := by
            have := hlt z (List.mem_cons_self z zs)
            rw [← hz] at this
            exact this
          rcases List.mem_cons.mp hy with rfl | hy'
          · rw [hres]
            exact hacc
          · rcases List.mem_cons.mp hy' with rfl | hy''
            · rw [hres]
              omega
            · rw [hres]
              exact hlt y (List.mem_cons_of_mem z hy'')

/-- C1: for feedback matching keywords of two or more categories,
`analyze_feedback` returns the matched category whose phase list is longest,
with ties resolved to the category declared first in the fixed table: the
returned entry splits the ordered matched list into earlier entries with
strictly fewer phases and later entries with no more phases, and the matched
list itself is an order-preserving sublist of the declaration table. -/
theorem analyze_feedback_multi (feedback : String)
    (h : 2 ≤ (matchedTypes feedback).length) :
    ∃ e l1 l2, matchedTypes feedback = l1 ++ e :: l2 ∧
      (∀ x ∈ l1, x.2.phases.length < e.2.phases.length) ∧
      (∀ x ∈ l2, x.2.phases.length ≤ e.2.phases.length) ∧
      List.Sublist (matchedTypes feedback) MODIFICATION_TYPES ∧
      analyze_feedback feedback = (e.1, e.2.phases, e.2.labels) := by
  cases hm : matchedTypes feedback with
  | nil =>
    rw [hm] at h
    simp at h
  | cons m ms =>
    obtain ⟨l1, l2, heq, hlt, hle⟩ := pyMaxBy_spec (fun p => p.2.phases.length) ms m
    refine ⟨pyMaxBy (fun p => p.2.phases.length) ms m, l1, l2, heq, hlt, hle, ?_, ?_⟩
    · rw [← hm]
      exact List.filter_sublist _
    · simp [analyze_feedback, hm]

/-- Witness for `analyze_feedback_multi`: the feedback matches both the ui
category (keyword デザイン) and the logic category (keyword バグ). -/
theorem analyze_feedback_multi_witness :
    2 ≤ (matchedTypes "バグとデザイン").length ∧
    ∃ e l1 l2, matchedTypes "バグとデザイン" = l1 ++ e :: l2 ∧
      (∀ x ∈ l1, x.2.phases.length < e.2.phases.length) ∧
      (∀ x ∈ l2, x.2.phases.length ≤ e.2.phases.length) ∧
      List.Sublist (matchedTypes "バグとデザイン") MODIFICATION_TYPES ∧
      analyze_feedback "バグとデザイン" = (e.1, e.2.phases, e.2.labels) :=
  ⟨by decide, analyze_feedback_multi "バグとデザイン" (by decide)⟩

/-- C2: when no keyword of any category occurs as a case-insensitive substring
of the feedback, `analyze_feedback` returns category ui with phases 3, 6 and
label set type:ui. -/
theorem analyze_feedback_default (feedback : String)
    (h : ∀ p ∈ MODIFICATION_TYPES, ∀ k ∈ p.2.keywords,
      containsSub (GitHubIssuePRManager.pyLowerStr k).data
        (GitHubIssuePRManager.pyLowerStr feedback).data = false) :
    analyze_feedback feedback = ("ui", [3, 6], ["type:ui"]) := by
  have hm : matchedTypes feedback = [] := by
    rw [matchedTypes, List.filter_eq_nil_iff]
    intro p hp
    simp only [Bool.not_eq_true, List.any_eq_false]
    intro k hk
    exact h p hp k hk
  simp [analyze_feedback, hm]

/-- Witness for `analyze_feedback_default`: no keyword occurs in `12345`. -/
theorem analyze_feedback_default_witness :
    (∀ p ∈ MODIFICATION_TYPES, ∀ k ∈ p.2.keywords,
      containsSub (GitHubIssuePRManager.pyLowerStr k).data
        (GitHubIssuePRManager.pyLowerStr "12345").data = false) ∧
    analyze_feedback "12345" = ("ui", [3, 6], ["type:ui"]) :=
  ⟨by decide, analyze_feedback_default "12345" (by decide)⟩

end ModificationWorkflow

namespace GitHubIssuePRManager

/-- The literal part of the regex of `create_issue` (source line 156). -/
def issuesPat : List Char := ['/', 'i', 's', 's', 'u', 'e', 's', '/']

/-- Drop `p` from the front of `l` when `p` occurs there. -/
def dropPre : List Char → List Char → Option (List Char)
  | [], l => some l
  | _ :: _, [] => none
  | a :: as, b :: bs => if a == b then dropPre as bs else none

/-- Numeric value of a digit run, as Python `int` of the captured group
(source line 158). -/
def digitsToNat (l : List Char) : Nat :=
  l.foldl (fun a c => a * 10 + (c.toNat - 48)) 0

/-- One attempted match of the regex at a given position: the literal
`/issues/` followed by at least one digit, capturing the maximal digit run
(the greedy `\d+`).  The regex class `\d` is modelled as the ASCII digits;
Python additionally accepts other Unicode decimal digits, which do not occur
in the URL-shaped command output concerned. -/
def matchIssueAt (l : List Char) : Option Nat :=
  match dropPre issuesPat l with
  | none => none
  | some rest =>
    if (rest.takeWhile Char.isDigit).isEmpty then none
    else some (digitsToNat (rest.takeWhile Char.isDigit))

/-- Python `re.search` of the pattern (source line 156): try each position
from the left and return the first match. -/
def searchIssueNumber : List Char → Option Nat
  | [] => matchIssueAt []
  | a :: t =>
    match matchIssueAt (a :: t) with
    | some n => some n
    | none => searchIssueNumber t

/-- The whitespace stripped by Python `str.strip()` (source line 155); Python
also strips some rarer Unicode space characters, none of which interact with
the pattern or the digits. -/
def isPyWhitespace (c : Char) : Bool :=
  c == ' ' || c == '\t' || c == '\n' || c == '\r' || c.toNat == 11 || c.toNat == 12

/-- Python `str.strip()` over a list of characters. -/
def pyStrip (l : List Char) : List Char :=
  ((l.dropWhile isPyWhitespace).reverse.dropWhile isPyWhitespace).reverse

/-- `GitHubIssuePRManager.create_issue` (source lines 119-164), reduced to the
value it computes from the external command's outcome: on exit code 0 extract
the issue number from the stripped stdout via the pattern; on non-zero exit,
or when the pattern does not match, return none (lines 152-164).  Label
bookkeeping and argument assembly (lines 132-150) do not affect the returned
value. -/
def create_issue (returncode : Int) (stdout : String) : Option Nat :=
  if returncode = 0 then searchIssueNumber (pyStrip stdout.data) else none

/-- The spec-side reading of a successful pattern search: somewhere in the
text, the literal `/issues/` is followed by a nonempty digit run. -/
def HasIssueRef (l : List Char) : Prop :=
  ∃ pre ds rest, l = pre ++ issuesPat ++ ds ++ rest ∧ ds ≠ [] ∧
    ds.all Char.isDigit = true

theorem dropPre_eq_some : ∀ (p l r : List Char), dropPre p l = some r ↔ l = p ++ r
  | [], l, r => by simp [dropPre, eq_comm]
  | _ :: _, [], _ => by simp [dropPre]
  | a :: as, b :: bs, r => by
    constructor
    · intro h
      simp only [dropPre] at h
      by_cases hab : (a == b) = true
      · rw [if_pos hab] at h
        have hab' : a = b := eq_of_beq hab
        subst hab'
        simp [(dropPre_eq_some as bs r).mp h]
      · rw [if_neg hab] at h
        exact absurd h (by simp)
    · intro h
      simp only [List.cons_append, List.cons_eq_cons] at h
      obtain ⟨hb, hbs⟩ := h
      simp only [dropPre]
      rw [if_pos (beq_iff_eq.mpr hb.symm)]
      exact (dropPre_eq_some as bs r).mpr hbs

theorem matchIssueAt_some {l : List Char} {n : Nat} (h : matchIssueAt l = some n) :
    ∃ ds rest, l = issuesPat ++ ds ++ rest ∧ ds ≠ [] ∧ ds.all Char.isDigit = true ∧
      digitsToNat ds = n := by
  simp only [matchIssueAt] at h
  cases hd : dropPre issuesPat l with
  | none =>
    rw [hd] at h
    exact absurd h (by simp)
  | some rest =>
    rw [hd] at h
    have h' : (if (rest.takeWhile Char.isDigit).isEmpty = true then none
        else some (digitsToNat (rest.takeWhile Char.isDigit))) = some n := h
    by_cases he : (rest.takeWhile Char.isDigit).isEmpty = true
    · rw [if_pos he] at h'
      exact absurd h' (by simp)
    · rw [if_neg he] at h'
      refine ⟨rest.takeWhile Char.isDigit, rest.dropWhile Char.isDigit, ?_, ?_, ?_, ?_⟩
      · rw [(dropPre_eq_some _ _ _).mp hd, List.append_assoc,
          List.takeWhile_append_dropWhile Char.isDigit rest]
      · simpa [List.isEmpty_iff] using he
      · rw [List.all_eq_true]
        intro x hx
        exact List.mem_takeWhile_imp hx
      · exact Option.some.inj h'

theorem matchIssueAt_of_head {ds rest : List Char} (hne : ds ≠ [])
    (hdig : ds.all Char.isDigit = true) :
    (matchIssueAt (issuesPat ++ ds ++ rest)).isSome = true := by
  have hd : dropPre issuesPat (issuesPat ++ ds ++ rest) = some (ds ++ rest) := by
    rw [dropPre_eq_some, List.append_assoc]
  simp only [matchIssueAt, hd]
  cases ds with
  | nil => exact absurd rfl hne
  | cons d ds' =>
    have hdd : Char.isDigit d = true := by
      rw [List.all_eq_true] at hdig
      exact hdig d (List.mem_cons_self d ds')
    rw [List.cons_append, show List.takeWhile Char.isDigit (d :: (ds' ++ rest)) =
      d :: List.takeWhile Char.isDigit (ds' ++ rest) from by simp [List.takeWhile_cons, hdd]]
    simp

theorem searchIssue_some_decomp : ∀ {l : List Char} {n : Nat},
    searchIssueNumber l = some n →
    ∃ pre ds rest, l = pre ++ issuesPat ++ ds ++ rest ∧ ds ≠ [] ∧
      ds.all Char.isDigit = true ∧ digitsToNat ds = n
  | [], n, h => by simp [searchIssueNumber, matchIssueAt, issuesPat, dropPre] at h
  | a :: t, n, h => by
    cases hm : matchIssueAt (a :: t) with
    | some m =>
      have hmn : m = n := by
        simp only [searchIssueNumber, hm] at h
        exact Option.some.inj h
      obtain ⟨ds, rest, heq, hne, hdig, hval⟩ := matchIssueAt_some hm
      exact ⟨[], ds, rest, by simpa using heq, hne, hdig, by rw [hval, hmn]⟩
    | none =>
      have h' : searchIssueNumber t = some n := by
        simpa [searchIssueNumber, hm] using h
      obtain ⟨pre, ds, rest, heq, hne, hdig, hval⟩ := searchIssue_some_decomp h'
      exact ⟨a :: pre, ds, rest, by simp [heq], hne, hdig, hval⟩

theorem searchIssue_isSome_iff : ∀ (l : List Char),
    (searchIssueNumber l).isSome = true ↔ HasIssueRef l
  | [] => by
    constructor
    · intro h
      simp [searchIssueNumber, matchIssueAt, issuesPat, dropPre] at h
    · rintro ⟨pre, ds, rest, heq, -, -⟩
      have hlen := congrArg List.length heq
      simp [issuesPat] at hlen
      omega
  | a :: t => by
    cases hm : matchIssueAt (a :: t) with
    | some m =>
      have hsome : (searchIssueNumber (a :: t)).isSome = true := by
        simp [searchIssueNumber, hm]
      refine ⟨fun _ => ?_, fun _ => hsome⟩
      obtain ⟨ds, rest, heq, hne, hdig, -⟩ := matchIssueAt_some hm
      exact ⟨[], ds, rest, by simpa using heq, hne, hdig⟩
    | none =>
      have hstep : searchIssueNumber (a :: t) = searchIssueNumber t := by
        simp [searchIssueNumber, hm]
      rw [hstep, searchIssue_isSome_iff t]
      constructor
      · rintro ⟨pre, ds, rest, heq, hne, hdig⟩
        exact ⟨a :: pre, ds, rest, by simp [heq], hne, hdig⟩
      · rintro ⟨pre, ds, rest, heq, hne, hdig⟩
        cases pre with
        | nil =>
          exfalso
          have hat : (matchIssueAt (a :: t)).isSome = true := by
            rw [show a :: t = issuesPat ++ ds ++ rest from by simpa using heq]
            exact matchIssueAt_of_head hne hdig
          rw [hm] at hat
          simp at hat
        | cons c pre' =>
          simp only [List.cons_append, List.cons_eq_cons] at heq
          exact ⟨pre', ds, rest, heq.2, hne, hdig⟩

/-- C7: `create_issue` returns a number exactly when the external command
exits with code 0 and its stripped stdout contains the literal `/issues/`
followed by at least one digit; the returned number is the value of the digit
run captured at the matched position.  On non-zero exit or no match the
result is none; the function is total, so no exception path exists. -/
theorem create_issue_spec (returncode : Int) (stdout : String) :
    ((create_issue returncode stdout).isSome = true ↔
      returncode = 0 ∧ HasIssueRef (pyStrip stdout.data)) ∧
    (∀ n, create_issue returncode stdout = some n →
      returncode = 0 ∧ ∃ pre ds rest,
        pyStrip stdout.data = pre ++ issuesPat ++ ds ++ rest ∧ ds ≠ [] ∧
        ds.all Char.isDigit = true ∧ digitsToNat ds = n) := by
  constructor
  · by_cases hrc : returncode = 0
    · simp only [create_issue, if_pos hrc, hrc, true_and]
      exact searchIssue_isSome_iff _
    · simp [create_issue, hrc]
  · intro n h
    simp only [create_issue] at h
    by_cases hrc : returncode = 0
    · rw [if_pos hrc] at h
      exact ⟨hrc, searchIssue_some_decomp h⟩
    · rw [if_neg hrc] at h
      exact absurd h (by simp)

/-- Witness for `create_issue_spec`: the spec's scenario, stdout
`https://github.com/acct/ai-agent-portfolio/issues/42` with exit code 0,
yields issue number 42. -/
theorem create_issue_spec_witness :
    (0 : Int) = 0 ∧ ∃ pre ds rest,
      pyStrip ("https://github.com/acct/ai-agent-portfolio/issues/42").data =
        pre ++ issuesPat ++ ds ++ rest ∧ ds ≠ [] ∧
      ds.all Char.isDigit = true ∧ digitsToNat ds = 42 :=
  (create_issue_spec 0 "https://github.com/acct/ai-agent-portfolio/issues/42").2 42 (by decide)

end GitHubIssuePRManager

namespace ModificationWorkflow

/-- Truthiness of an optional integer in Python: present and nonzero (both
`if issue_number and not dry_run`, source line 665, and
`if pr_number and not dry_run`, source line 695, test truthiness, under which
0 counts as absent). -/
def optNatTruthy : Option Nat → Bool
  | none => false
  | some n => n != 0

/-- The external mutating calls `complete_fix` can issue, in program order:
the publish collaborator (line 656), change-request creation (line 680) and
the merge request (line 698). -/
inductive ExtCall
  | publishCall
  | createPullRequestCall
  | mergePullRequestCall

/-- The preconditions and collaborator outcomes visible to one `complete_fix`
invocation: whether workflow state was loaded, whether a pending modification
exists, the stored tracking issue number, whether project/public exists, the
dry-run flag, and the results the publish, change-request and merge
collaborators would report if invoked. -/
structure CompleteFixEnv where
  state_exists : Bool
  pending_exists : Bool
  issue_number : Option Nat
  public_path_exists : Bool
  dry_run : Bool
  publish_ok : Bool
  pr_create_result : Option Nat
  merge_ok : Bool

/-- What one `complete_fix` invocation produces: the returned success flag and
message, the ordered trace of external calls, and whether
`complete_modification` was invoked on the state manager, the only way the
pending cycle is marked Completed. -/
structure CompleteFixResult where
  success : Bool
  message : String
  calls : List ExtCall
  completed_modification : Bool

/-- `ModificationWorkflow.complete_fix` (source lines 593-724) as a function
of the collaborator outcomes.  Control flow mirrors the source: missing
workflow state (line 608), missing pending modification (line 612) and
missing project/public (line 637) each return failure before any external
call; the publish collaborator runs unless dry-run and its failure aborts
with failure (lines 646-658); the change request is attempted only with a
truthy issue number and not in dry-run (line 665); the merge only with a
truthy change-request number and not in dry-run (line 695), and a merge
failure only warns; finally `complete_modification` runs unconditionally
(line 706) and the invocation reports success (line 724). -/
def complete_fix (env : CompleteFixEnv) : CompleteFixResult :=
  if !env.state_exists then ⟨false, "No workflow state", [], false⟩
  else if !env.pending_exists then ⟨false, "No pending modification", [], false⟩
  else if !env.public_path_exists then ⟨false, "project/public/ not found", [], false⟩
  else if !env.dry_run && !env.publish_ok then
    ⟨false, "GitHub publish failed", [ExtCall.publishCall], false⟩
  else
    let calls0 : List ExtCall := if env.dry_run then [] else [ExtCall.publishCall]
    let doPR := optNatTruthy env.issue_number && !env.dry_run
    let calls1 := calls0 ++ (if doPR then [ExtCall.createPullRequestCall] else [])
    let pr_number := if doPR then env.pr_create_result else none
    let doMerge := optNatTruthy pr_number && !env.dry_run
    let calls2 := calls1 ++ (if doMerge then [ExtCall.mergePullRequestCall] else [])
    ⟨true, "Modification completed successfully", calls2, true⟩

/-- C3: with workflow state, a pending modification and project/public
present, not in dry-run, a publish failure makes `complete_fix` return
failure without invoking `complete_modification`, so the pending cycle is not
marked Completed, whatever the tracking-artifact state. -/
theorem complete_fix_publish_failure (env : CompleteFixEnv)
    (hs : env.state_exists = true) (hp : env.pending_exists = true)
    (hpub : env.public_path_exists = true) (hd : env.dry_run = false)
    (hfail : env.publish_ok = false) :
    (complete_fix env).success = false ∧
    (complete_fix env).completed_modification = false := by
  simp [complete_fix, hs, hp, hpub, hd, hfail]

/-- Witness for `complete_fix_publish_failure`: a tracking artifact is
present, yet the failed publish blocks completion. -/
theorem complete_fix_publish_failure_witness :
    (complete_fix ⟨true, true, some 5, true, false, false, some 7, true⟩).success = false ∧
    (complete_fix ⟨true, true, some 5, true, false, false, some 7,
      true⟩).completed_modification = false :=
  complete_fix_publish_failure ⟨true, true, some 5, true, false, false, some 7, true⟩
    rfl rfl rfl rfl rfl

/-- C4: with workflow state, a pending modification and project/public
present, not in dry-run, a successful publish leads `complete_fix` to invoke
`complete_modification` and return success even when the tracking bridge
recorded no issue number; then the publish is the only external call, so no
change request is created and no merge is attempted. -/
theorem complete_fix_degraded_success (env : CompleteFixEnv)
    (hs : env.state_exists = true) (hp : env.pending_exists = true)
    (hpub : env.public_path_exists = true) (hd : env.dry_run = false)
    (hok : env.publish_ok = true) (hno : env.issue_number = none) :
    (complete_fix env).success = true ∧
    (complete_fix env).completed_modification = true ∧
    (complete_fix env).calls = [ExtCall.publishCall] := by
  simp [complete_fix, hs, hp, hpub, hd, hok, hno, optNatTruthy]

/-- Witness for `complete_fix_degraded_success`: the fully degraded path. -/
theorem complete_fix_degraded_success_witness :
    (complete_fix ⟨true, true, none, true, false, true, none, false⟩).success = true ∧
    (complete_fix ⟨true, true, none, true, false, true, none,
      false⟩).completed_modification = true ∧
    (complete_fix ⟨true, true, none, true, false, true, none, false⟩).calls =
      [ExtCall.publishCall] :=
  complete_fix_degraded_success ⟨true, true, none, true, false, true, none, false⟩
    rfl rfl rfl rfl rfl rfl

/-- C8: when project/public does not exist, `complete_fix` with workflow
state and a pending modification present fails immediately: no external call
is made and `complete_modification` is not invoked, leaving the pending
cycle's status unchanged. -/
theorem complete_fix_missing_public (env : CompleteFixEnv)
    (hs : env.state_exists = true) (hp : env.pending_exists = true)
    (hpub : env.public_path_exists = false) :
    (complete_fix env).success = false ∧ (complete_fix env).calls = [] ∧
    (complete_fix env).completed_modification = false := by
  simp [complete_fix, hs, hp, hpub]

/-- Witness for `complete_fix_missing_public`. -/
theorem complete_fix_missing_public_witness :
    (complete_fix ⟨true, true, some 3, false, false, true, some 9, true⟩).success = false ∧
    (complete_fix ⟨true, true, some 3, false, false, true, some 9, true⟩).calls = [] ∧
    (complete_fix ⟨true, true, some 3, false, false, true, some 9,
      true⟩).completed_modification = false :=
  complete_fix_missing_public ⟨true, true, some 3, false, false, true, some 9, true⟩
    rfl rfl rfl

/-- C10: in dry-run, with workflow state, a pending modification and
project/public present, `complete_fix` makes no external call at all, yet
still invokes `complete_modification` and returns success. -/
theorem complete_fix_dry_run (env : CompleteFixEnv)
    (hs : env.state_exists = true) (hp : env.pending_exists = true)
    (hpub : env.public_path_exists = true) (hd : env.dry_run = true) :
    (complete_fix env).calls = [] ∧
    (complete_fix env).completed_modification = true ∧
    (complete_fix env).success = true := by
  simp [complete_fix, hs, hp, hpub, hd]

/-- Witness for `complete_fix_dry_run`: even with a full tracking artifact,
dry-run performs no external call and still completes the cycle. -/
theorem complete_fix_dry_run_witness :
    (complete_fix ⟨true, true, some 5, true, true, false, some 7, true⟩).calls = [] ∧
    (complete_fix ⟨true, true, some 5, true, true, false, some 7,
      true⟩).completed_modification = true ∧
    (complete_fix ⟨true, true, some 5, true, true, false, some 7, true⟩).success = true :=
  complete_fix_dry_run ⟨true, true, some 5, true, true, false, some 7, true⟩ rfl rfl rfl rfl

end ModificationWorkflow

namespace WorkflowStateManager

/-- Status of one modification cycle (spec section 3). -/
inductive CycleStatus
  | pending
  | inProgress
  | completed
deriving DecidableEq

/-- One modification cycle as the ledger records it (spec section 3). -/
structure ModificationCycle where
  feedback : String
  phases_to_rerun : List Nat
  iteration : Nat
  status : CycleStatus
deriving DecidableEq

/-- A cycle that blocks new requests: Pending or InProgress (spec section 3
invariant). -/
def isActive (c : ModificationCycle) : Bool :=
  match c.status with
  | CycleStatus.pending => true
  | CycleStatus.inProgress => true
  | CycleStatus.completed => false

/-- Modelled from the spec: helper for the ledger's replace-on-request policy,
overwriting the first Pending or InProgress cycle in place; with no active
cycle the new one is appended. -/
def overwriteFirstActive (newc : ModificationCycle) :
    List ModificationCycle → List ModificationCycle
  | [] => [newc]
  | c :: cs => if isActive c then newc :: cs else c :: overwriteFirstActive newc cs

/-- Modelled from the spec: `WorkflowStateManager.request_modification`, the
ledger recordRequest called at source line 476, lives in
workflow_state_manager.py, which is not part of this repository's source.
Spec section 4.3 says it enforces the single-pending invariant at this
boundary, a new request replacing an existing Pending or InProgress cycle,
and the section 8 scenario says the second of two consecutive requests
overwrites the first pending cycle rather than queueing a second one.  The
new cycle is recorded Pending with the next iteration number. -/
def request_modification (mods : List ModificationCycle) (feedback : String)
    (phases : List Nat) : List ModificationCycle :=
  overwriteFirstActive ⟨feedback, phases, mods.length + 1, CycleStatus.pending⟩ mods

theorem filter_overwrite (newc : ModificationCycle) (hnew : isActive newc = true) :
    ∀ (l : List ModificationCycle), (l.filter isActive).length ≤ 1 →
      (overwriteFirstActive newc l).filter isActive = [newc]
  | [], _ => by simp [overwriteFirstActive, List.filter_cons_of_pos hnew]
  | c :: cs, h => by
    by_cases hc : isActive c = true
    · rw [show overwriteFirstActive newc (c :: cs) = newc :: cs from by
        simp [overwriteFirstActive, hc]]
      have hcs : cs.filter isActive = [] := by
        rw [List.filter_cons_of_pos hc] at h
        simp only [List.length_cons] at h
        exact List.length_eq_zero.mp (by omega)
      rw [List.filter_cons_of_pos hnew, hcs]
    · rw [show overwriteFirstActive newc (c :: cs) = c :: overwriteFirstActive newc cs from by
        simp [overwriteFirstActive, hc]]
      rw [List.filter_cons_of_neg (by simp [hc])]
      refine filter_overwrite newc hnew cs ?_
      rwa [List.filter_cons_of_neg (by simp [hc])] at h

theorem length_overwrite_of_active (newc : ModificationCycle) :
    ∀ (l : List ModificationCycle), l.any isActive = true →
      (overwriteFirstActive newc l).length = l.length
  | [], h => by simp at h
  | c :: cs, h => by
    by_cases hc : isActive c = true
    · simp [overwriteFirstActive, hc]
    · have h' : cs.any isActive = true := by
        simpa [List.any_cons, hc] using h
      simp [overwriteFirstActive, hc, length_overwrite_of_active newc cs h']

/-- C9 (modelled from the spec, see `request_modification`): starting from any
ledger satisfying the documented single-flight invariant, after two
consecutive `request_modification` calls with nothing in between, at most one
cycle is Pending or InProgress; the second call overwrites the first pending
cycle rather than queueing: it leaves the ledger length unchanged and its
unique active cycle is the second request, recorded Pending. -/
theorem request_modification_single_flight (mods : List ModificationCycle)
    (f1 : String) (p1 : List Nat) (f2 : String) (p2 : List Nat)
    (h : (mods.filter isActive).length ≤ 1) :
    ((request_modification (request_modification mods f1 p1) f2 p2).filter
      isActive).length ≤ 1 ∧
    (request_modification (request_modification mods f1 p1) f2 p2).length =
      (request_modification mods f1 p1).length ∧
    (request_modification (request_modification mods f1 p1) f2 p2).filter isActive =
      [⟨f2, p2, (request_modification mods f1 p1).length + 1, CycleStatus.pending⟩] := by
  have hact1 : (request_modification mods f1 p1).filter isActive =
      [⟨f1, p1, mods.length + 1, CycleStatus.pending⟩] :=
    filter_overwrite ⟨f1, p1, mods.length + 1, CycleStatus.pending⟩ rfl mods h
  have hm1le : ((request_modification mods f1 p1).filter isActive).length ≤ 1 := by
    rw [hact1]
    simp
  have hm1any : (request_modification mods f1 p1).any isActive = true := by
    have hmem : (⟨f1, p1, mods.length + 1, CycleStatus.pending⟩ : ModificationCycle) ∈
        (request_modification mods f1 p1).filter isActive := by
      rw [hact1]
      exact List.mem_singleton_self _
    rw [List.any_eq_true]
    exact ⟨_, (List.mem_filter.mp hmem).1, (List.mem_filter.mp hmem).2⟩
  have hact2 : (request_modification (request_modification mods f1 p1) f2 p2).filter
      isActive = [⟨f2, p2, (request_modification mods f1 p1).length + 1,
        CycleStatus.pending⟩] :=
    filter_overwrite ⟨f2, p2, (request_modification mods f1 p1).length + 1,
      CycleStatus.pending⟩ rfl (request_modification mods f1 p1) hm1le
  refine ⟨?_, ?_, hact2⟩
  · rw [hact2]
    simp
  · exact length_overwrite_of_active _ (request_modification mods f1 p1) hm1any

/-- Witness for `request_modification_single_flight`: a ledger holding one
completed historical cycle. -/
theorem request_modification_single_flight_witness :
    ((([⟨"old", [3, 6], 1, CycleStatus.completed⟩] : List ModificationCycle).filter
      isActive).length ≤ 1) ∧
    ((request_modification (request_modification
        [⟨"old", [3, 6], 1, CycleStatus.completed⟩] "first fix" [3, 6])
        "second fix" [3, 4, 6]).filter isActive).length ≤ 1 ∧
    (request_modification (request_modification
        [⟨"old", [3, 6], 1, CycleStatus.completed⟩] "first fix" [3, 6])
        "second fix" [3, 4, 6]).length =
      (request_modification [⟨"old", [3, 6], 1, CycleStatus.completed⟩]
        "first fix" [3, 6]).length ∧
    (request_modification (request_modification
        [⟨"old", [3, 6], 1, CycleStatus.completed⟩] "first fix" [3, 6])
        "second fix" [3, 4, 6]).filter isActive =
      [⟨"second fix", [3, 4, 6],
        (request_modification [⟨"old", [3, 6], 1, CycleStatus.completed⟩]
          "first fix" [3, 6]).length + 1, CycleStatus.pending⟩] :=
  ⟨by decide, request_modification_single_flight
    [⟨"old", [3, 6], 1, CycleStatus.completed⟩] "first fix" [3, 6]
    "second fix" [3, 4, 6] (by decide)⟩

end WorkflowStateManager
